import Mathlib

set_option maxHeartbeats 800000

/- Shallow embedding of src/cli.c from pedrompeixoto/telescope-fzf-native.nvim:
the sorted result collector (fzf_linked_list_t, cli.c 217-285), the worker-pool
task queue (the pool_work_t chain reached from work_first/work_last, cli.c 23-80
and 184-191), the pool's shared counters and stop flag (cli.c 31-40), and the
single-threaded main (cli.c 324-349).  Scores are int32_t values used only in
comparisons, embedded as Int; the external scoring capability fzf_get_score
(declared in fzf.h, outside this translation unit) enters as a function
parameter.  Mutex-protected critical sections of the pool are modeled as atomic
steps of a transition system, which is faithful because every access to the
shared fields happens under the single work_mutex. -/

/- Part 1: the sorted result collector (cli.c 217-285). -/

structure FzfTuple where
  str : String
  score : Int
deriving DecidableEq

structure FzfLinkedList where
  head : List FzfTuple
  len : Nat
deriving DecidableEq

/-- fzf_list_create (cli.c 240-246): len 0, head NULL. -/
def fzf_list_create : FzfLinkedList := ⟨[], 0⟩

/-- The else-branch scan of fzf_list_insert (cli.c 268-276): curr starts at the
head node c; advance while curr->next != NULL and curr->next->item.score is
strictly greater than the new node's score; then link the new node after curr. -/
def insert_after (nd : FzfTuple) : FzfTuple → List FzfTuple → List FzfTuple
  | c, [] => [c, nd]
  | c, n :: rest =>
    if nd.score < n.score then c :: insert_after nd n rest
    else c :: nd :: n :: rest

/-- The head-chain update performed by fzf_list_insert (cli.c 264-276): cons at
the head when the list is empty or head->item.score <= the new node's score,
otherwise scan with insert_after. -/
def insert_list (item : FzfTuple) : List FzfTuple → List FzfTuple
  | [] => [item]
  | h :: t => if h.score ≤ item.score then item :: h :: t else insert_after item h t

/-- fzf_list_insert (cli.c 262-277): ++list->len, then relink the head chain. -/
def fzf_list_insert (L : FzfLinkedList) (item : FzfTuple) : FzfLinkedList :=
  ⟨insert_list item L.head, L.len + 1⟩

/-- The loop of fzf_list_print (cli.c 279-285): one printf("%s (%d)\n", ...) per
node, head to tail. -/
def print_loop : List FzfTuple → List String
  | [] => []
  | t :: rest => (t.str ++ " (" ++ toString t.score ++ ")") :: print_loop rest

/-- fzf_list_print (cli.c 279-285): the stdout lines it emits, in order. -/
def fzf_list_print (L : FzfLinkedList) : List String := print_loop L.head

/-- The "%s (%d)" line format of cli.c 282 (and 291) as a function. -/
def fmtTuple (t : FzfTuple) : String := t.str ++ " (" ++ toString t.score ++ ")"

/-- Descending order on collector entries: a may precede b iff b.score <= a.score. -/
def scoreGE (a b : FzfTuple) : Prop := b.score ≤ a.score

instance : DecidableRel scoreGE := fun a b => inferInstanceAs (Decidable (b.score ≤ a.score))

instance : IsTotal FzfTuple scoreGE := ⟨fun a b => le_total b.score a.score⟩

instance : IsTrans FzfTuple scoreGE := ⟨fun _ _ _ hab hbc => le_trans hbc hab⟩

theorem print_loop_eq_map (l : List FzfTuple) : print_loop l = l.map fmtTuple := by
  induction l with
  | nil => rfl
  | cons t rest ih => simp [print_loop, fmtTuple, ih]

theorem insert_after_eq_orderedInsert (nd : FzfTuple) :
    ∀ (c : FzfTuple) (t : List FzfTuple),
      insert_after nd c t = c :: List.orderedInsert scoreGE nd t := by
  intro c t
  induction t generalizing c with
  | nil => rfl
  | cons n rest ih =>
    by_cases h : nd.score < n.score
    · rw [insert_after, if_pos h, ih, List.orderedInsert,
        if_neg (show ¬ scoreGE nd n from not_le.mpr h)]
    · rw [insert_after, if_neg h, List.orderedInsert,
        if_pos (show scoreGE nd n from not_lt.mp h)]

theorem insert_list_eq_orderedInsert (item : FzfTuple) (l : List FzfTuple) :
    insert_list item l = List.orderedInsert scoreGE item l := by
  cases l with
  | nil => rfl
  | cons h t =>
    by_cases hs : h.score ≤ item.score
    · rw [insert_list, if_pos hs, List.orderedInsert, if_pos (show scoreGE item h from hs)]
    · rw [insert_list, if_neg hs, List.orderedInsert, if_neg (show ¬ scoreGE item h from hs),
        insert_after_eq_orderedInsert]

theorem insert_after_take_drop (item : FzfTuple) :
    ∀ (c : FzfTuple) (t : List FzfTuple), item.score < c.score →
      insert_after item c t =
        (c :: t).takeWhile (fun b => decide (item.score < b.score)) ++
          item :: (c :: t).dropWhile (fun b => decide (item.score < b.score)) := by
  intro c t
  induction t generalizing c with
  | nil =>
    intro hc
    simp [insert_after, List.takeWhile, List.dropWhile, hc]
  | cons n rest ih =>
    intro hc
    by_cases h : item.score < n.score
    · rw [insert_after, if_pos h, ih n h]
      simp [List.takeWhile_cons, List.dropWhile_cons, hc, h]
    · rw [insert_after, if_neg h]
      simp [List.takeWhile_cons, List.dropWhile_cons, hc, h]

theorem insert_list_take_drop (item : FzfTuple) (l : List FzfTuple) :
    insert_list item l =
      l.takeWhile (fun b => decide (item.score < b.score)) ++
        item :: l.dropWhile (fun b => decide (item.score < b.score)) := by
  cases l with
  | nil => rfl
  | cons h t =>
    by_cases hs : h.score ≤ item.score
    · rw [insert_list, if_pos hs]
      simp [List.takeWhile_cons, List.dropWhile_cons, not_lt.mpr hs]
    · rw [insert_list, if_neg hs, insert_after_take_drop item h t (not_le.mp hs)]

theorem insert_list_sorted (item : FzfTuple) (l : List FzfTuple)
    (h : List.Sorted scoreGE l) : List.Sorted scoreGE (insert_list item l) := by
  rw [insert_list_eq_orderedInsert]
  exact h.orderedInsert item l

theorem insert_list_perm (item : FzfTuple) (l : List FzfTuple) :
    (insert_list item l).Perm (item :: l) := by
  rw [insert_list_eq_orderedInsert]
  exact List.perm_orderedInsert scoreGE item l

theorem foldl_insert_sorted (items : List FzfTuple) :
    ∀ L : FzfLinkedList, List.Sorted scoreGE L.head →
      List.Sorted scoreGE (items.foldl fzf_list_insert L).head := by
  induction items with
  | nil => intro L h; exact h
  | cons i is ih =>
    intro L h
    exact ih (fzf_list_insert L i) (insert_list_sorted i L.head h)

theorem foldl_insert_perm (items : List FzfTuple) :
    ∀ L : FzfLinkedList, ((items.foldl fzf_list_insert L).head).Perm (L.head ++ items) := by
  induction items with
  | nil => intro L; simp
  | cons i is ih =>
    intro L
    have h1 := ih (fzf_list_insert L i)
    have h2 : (insert_list i L.head ++ is).Perm ((i :: L.head) ++ is) :=
      (insert_list_perm i L.head).append_right is
    have h3 : ((i :: L.head) ++ is).Perm (L.head ++ i :: is) := by
      simpa using List.perm_middle.symm
    exact (h1.trans h2).trans h3

/-- Claim C2: fzf_list_insert places the new node immediately before the first
existing node whose score is not strictly greater than the new node's score (so
later-inserted equal-score items end up closer to the head), and inserting
scores [3, 9, 3, 7] in that order yields traversal order
[9, 7, 3 (second inserted), 3 (first inserted)]. -/
theorem fzf_list_insert_placement :
    (∀ (L : FzfLinkedList) (item : FzfTuple),
      (fzf_list_insert L item).head =
        L.head.takeWhile (fun b => decide (item.score < b.score)) ++
          item :: L.head.dropWhile (fun b => decide (item.score < b.score))) ∧
    ([⟨"first3", 3⟩, ⟨"nine", 9⟩, ⟨"second3", 3⟩, ⟨"seven", 7⟩].foldl
        fzf_list_insert fzf_list_create).head =
      [⟨"nine", 9⟩, ⟨"seven", 7⟩, ⟨"second3", 3⟩, ⟨"first3", 3⟩] :=
  ⟨fun L item => insert_list_take_drop item L.head, by decide⟩

/-- Claim C3: any sequence of fzf_list_insert calls starting from
fzf_list_create leaves the chain sorted by non-increasing score, and
fzf_list_print emits exactly one "%s (%d)" line per stored pair, head to tail,
in that descending-score order (its output is exactly the format function mapped
over the chain, which is a permutation of all inserted items). -/
theorem fzf_list_sorted_traversal (items : List FzfTuple) :
    List.Sorted scoreGE ((items.foldl fzf_list_insert fzf_list_create).head) ∧
    fzf_list_print (items.foldl fzf_list_insert fzf_list_create) =
      ((items.foldl fzf_list_insert fzf_list_create).head).map fmtTuple ∧
    ((items.foldl fzf_list_insert fzf_list_create).head).Perm items := by
  refine ⟨foldl_insert_sorted items fzf_list_create (by simp [fzf_list_create]), ?_, ?_⟩
  · exact print_loop_eq_map _
  · simpa [fzf_list_create] using foldl_insert_perm items fzf_list_create

/-- Claim C10: fzf_list_insert adds exactly one node holding the given item and
keeps every node already present with its (string, score) contents unchanged:
the new chain is a permutation of the old chain plus the new item, and len
increases by exactly one. -/
theorem fzf_list_insert_frame (L : FzfLinkedList) (item : FzfTuple) :
    ((fzf_list_insert L item).head).Perm (item :: L.head) ∧
    (fzf_list_insert L item).len = L.len + 1 :=
  ⟨insert_list_perm item L.head, rfl⟩

/- Part 2: the task queue at the pointer level (cli.c 23-80, 153-162, 184-191).
Nodes live in a heap mapping addresses (Nat) to pool_work_t records; malloc
hands out strictly increasing addresses; free removes an address.  work_first /
work_last are nullable node pointers exactly as in struct pool. -/

/-- The payload of a pool_work_t (cli.c 24-29): func, text, pattern.  Function
and pattern pointers are opaque addresses. -/
structure WorkItem where
  func : Nat
  text : String
  pattern : Nat
deriving DecidableEq

/-- One heap node: pool_work_t (cli.c 24-29), payload plus the next pointer. -/
structure WorkNode where
  item : WorkItem
  next : Option Nat
deriving DecidableEq

/-- The queue-related fields of struct pool (cli.c 31-40): the node heap, the
work_first and work_last pointers, and the next address malloc will return. -/
structure QState where
  heap : List (Nat × WorkNode)
  work_first : Option Nat
  work_last : Option Nat
  fresh : Nat
deriving DecidableEq

/-- Pointer dereference: the node allocated at address a, if any. -/
def heapLookup (h : List (Nat × WorkNode)) (a : Nat) : Option WorkNode :=
  match h with
  | [] => none
  | (k, nd) :: t => if k = a then some nd else heapLookup t a

/-- In-place mutation of the node at address a (e.g. work_last->next = work). -/
def heapUpdate (h : List (Nat × WorkNode)) (a : Nat) (nd : WorkNode) :
    List (Nat × WorkNode) :=
  match h with
  | [] => []
  | (k, v) :: t => if k = a then (a, nd) :: heapUpdate t a nd else (k, v) :: heapUpdate t a nd

/-- free(node at address a). -/
def heapFree (h : List (Nat × WorkNode)) (a : Nat) : List (Nat × WorkNode) :=
  match h with
  | [] => []
  | (k, v) :: t => if k = a then heapFree t a else (k, v) :: heapFree t a

/-- The allocated addresses. -/
def heapKeys (h : List (Nat × WorkNode)) : List Nat := h.map Prod.fst

/-- The address the tail pointer should hold for a chain of node addresses. -/
def lastPtr : List Nat → Option Nat
  | [] => none
  | [a] => some a
  | _ :: b :: l => lastPtr (b :: l)

/-- The queue mutation of pool_add_work (cli.c 184-191) together with the node
allocation of pool_work_create (cli.c 48-52): a fresh node holding the item with
next = NULL is allocated; if work_first is NULL both pointers are set to it,
otherwise it is linked behind work_last.  Returns none when the code would
dereference an invalid work_last pointer (impossible on well-formed states). -/
def q_enqueue (q : QState) (it : WorkItem) : Option QState :=
  match q.work_first with
  | none =>
    some ⟨(q.fresh, WorkNode.mk it none) :: q.heap, some q.fresh, some q.fresh, q.fresh + 1⟩
  | some _ =>
    match q.work_last with
    | none => none
    | some la =>
      match heapLookup ((q.fresh, WorkNode.mk it none) :: q.heap) la with
      | none => none
      | some lnd =>
        some ⟨heapUpdate ((q.fresh, WorkNode.mk it none) :: q.heap) la
            (WorkNode.mk lnd.item (some q.fresh)),
          q.work_first, some q.fresh, q.fresh + 1⟩

/-- tpool_work_get (cli.c 62-80) for a non-null pool (the tm == NULL check at
cli.c 63-65 is at the handle level; every in-tree caller passes a non-null tm).
Returns none when the code would dereference a freed node; otherwise the updated
queue and the address of the removed node (none when the queue was empty).  The
node itself stays allocated: the worker frees it only after running the task
(cli.c 102-105). -/
def tpool_work_get (q : QState) : Option (QState × Option Nat) :=
  match q.work_first with
  | none => some (q, none)
  | some a =>
    match heapLookup q.heap a with
    | none => none
    | some nd =>
      match nd.next with
      | none => some (⟨q.heap, none, none, q.fresh⟩, some a)
      | some b => some (⟨q.heap, some b, q.work_last, q.fresh⟩, some a)

/-- The freeing walk of pool_destroy (cli.c 154-159): work = work_first; while
work != NULL { work2 = work->next; pool_work_destroy(work); work = work2; }.
Fuel bounds the walk by the number of allocated nodes; none means the walk read
a node that is not allocated (or the chain was cyclic), impossible on
well-formed states. -/
def sweepFrom : Nat → List (Nat × WorkNode) → Option Nat → Option (List (Nat × WorkNode))
  | _, heap, none => some heap
  | 0, _, some _ => none
  | fuel + 1, heap, some a =>
    match heapLookup heap a with
    | none => none
    | some nd => sweepFrom fuel (heapFree heap a) nd.next

/-- The queue sweep of pool_destroy (cli.c 153-162): every node reachable from
work_first is freed.  Note the walk leaves work_first and work_last untouched:
the pool struct itself is freed only later, at cli.c 170. -/
def q_sweep (q : QState) : Option QState :=
  (sweepFrom q.heap.length q.heap q.work_first).map
    (fun h => ⟨h, q.work_first, q.work_last, q.fresh⟩)

/-- work_last holds a pointer to a currently allocated node. -/
def tail_valid (q : QState) : Bool :=
  match q.work_last with
  | none => false
  | some a => (heapLookup q.heap a).isSome

/-- The spec's queue invariant: the tail pointer is a valid node pointer iff the
head pointer is non-null. -/
def head_tail_inv (q : QState) : Prop := tail_valid q = true ↔ q.work_first ≠ none

/-- The chain of nodes reached from a pointer: addresses visited and the items
they hold, ending at a NULL next pointer. -/
inductive ChainT : List (Nat × WorkNode) → Option Nat → List Nat → List WorkItem → Prop where
  | nil (h : List (Nat × WorkNode)) : ChainT h none [] []
  | cons {h : List (Nat × WorkNode)} {a : Nat} {nd : WorkNode}
      {addrs : List Nat} {ts : List WorkItem} :
      heapLookup h a = some nd → ChainT h nd.next addrs ts →
      ChainT h (some a) (a :: addrs) (nd.item :: ts)

/-- Well-formed queue: all allocated addresses are below the allocation counter,
the pending tasks form a proper NULL-terminated chain from work_first, and
work_last points at the last chain node (NULL for an empty chain). -/
def QWF (q : QState) (addrs : List Nat) (ts : List WorkItem) : Prop :=
  (∀ k ∈ heapKeys q.heap, k < q.fresh) ∧
  ChainT q.heap q.work_first addrs ts ∧
  q.work_last = lastPtr addrs

/- Heap and chain lemmas. -/

theorem heapLookup_mem_keys : ∀ (h : List (Nat × WorkNode)) (a : Nat) (nd : WorkNode),
    heapLookup h a = some nd → a ∈ heapKeys h := by
  intro h a nd
  induction h with
  | nil => intro hh; simp [heapLookup] at hh
  | cons p t ih =>
    obtain ⟨k, v⟩ := p
    intro hh
    rw [heapLookup] at hh
    by_cases hk : k = a
    · simp [heapKeys, hk]
    · rw [if_neg hk] at hh
      have := ih hh
      simp [heapKeys] at this ⊢
      exact Or.inr this

theorem heapLookup_none_of_bound (h : List (Nat × WorkNode)) (f : Nat)
    (hb : ∀ k ∈ heapKeys h, k < f) : heapLookup h f = none := by
  cases hl : heapLookup h f with
  | none => rfl
  | some nd => exact absurd (hb f (heapLookup_mem_keys h f nd hl)) (lt_irrefl f)

theorem heapLookup_cons (k : Nat) (v : WorkNode) (t : List (Nat × WorkNode)) (a : Nat) :
    heapLookup ((k, v) :: t) a = if k = a then some v else heapLookup t a := rfl

theorem heapLookup_update (h : List (Nat × WorkNode)) (a b : Nat) (nd : WorkNode) :
    heapLookup (heapUpdate h a nd) b =
      if b = a then (heapLookup h a).map (fun _ => nd) else heapLookup h b := by
  induction h with
  | nil => simp [heapUpdate, heapLookup]
  | cons p t ih =>
    obtain ⟨k, v⟩ := p
    rw [heapUpdate]
    by_cases hka : k = a
    · rw [if_pos hka]
      simp only [heapLookup_cons]
      rw [if_pos hka, ih]
      by_cases hba : b = a
      · rw [if_pos hba.symm, if_pos hba]
        rfl
      · have hkb : ¬ k = b := fun he => hba ((hka.symm.trans he).symm)
        rw [if_neg (fun he : a = b => hba he.symm), if_neg hba, if_neg hba, if_neg hkb]
    · rw [if_neg hka]
      simp only [heapLookup_cons]
      rw [if_neg hka, ih]
      by_cases hkb : k = b
      · have hba : ¬ b = a := fun he => hka (hkb.trans he)
        rw [if_pos hkb, if_neg hba, if_pos hkb]
      · rw [if_neg hkb, if_neg hkb]

theorem heapLookup_free (h : List (Nat × WorkNode)) (a b : Nat) :
    heapLookup (heapFree h a) b = if b = a then none else heapLookup h b := by
  induction h with
  | nil => simp [heapFree, heapLookup]
  | cons p t ih =>
    obtain ⟨k, v⟩ := p
    rw [heapFree]
    by_cases hka : k = a
    · rw [if_pos hka, ih]
      simp only [heapLookup_cons]
      by_cases hba : b = a
      · rw [if_pos hba, if_pos hba]
      · have hkb : ¬ k = b := fun he => hba ((hka.symm.trans he).symm)
        rw [if_neg hba, if_neg hba, if_neg hkb]
    · rw [if_neg hka]
      simp only [heapLookup_cons]
      rw [ih]
      by_cases hkb : k = b
      · have hba : ¬ b = a := fun he => hka (hkb.trans he)
        rw [if_pos hkb, if_neg hba, if_pos hkb]
      · rw [if_neg hkb, if_neg hkb]

theorem heapKeys_update (h : List (Nat × WorkNode)) (a : Nat) (nd : WorkNode) :
    heapKeys (heapUpdate h a nd) = heapKeys h := by
  induction h with
  | nil => rfl
  | cons p t ih =>
    obtain ⟨k, v⟩ := p
    rw [heapUpdate]
    by_cases hka : k = a
    · subst hka
      simp [heapKeys] at ih ⊢
      exact ih
    · simp [heapKeys, hka] at ih ⊢
      exact ih

theorem heapKeys_free_sub : ∀ (h : List (Nat × WorkNode)) (a k : Nat),
    k ∈ heapKeys (heapFree h a) → k ∈ heapKeys h := by
  intro h a k
  induction h with
  | nil => intro hk; simpa [heapFree] using hk
  | cons p t ih =>
    obtain ⟨kk, v⟩ := p
    rw [heapFree]
    by_cases hka : kk = a
    · rw [if_pos hka]
      intro hk
      exact List.mem_cons_of_mem kk (ih hk)
    · rw [if_neg hka]
      intro hk
      rcases List.mem_cons.mp hk with he | hm
      · exact he ▸ List.mem_cons_self kk _
      · exact List.mem_cons_of_mem kk (ih hm)

theorem lastPtr_concat : ∀ (l : List Nat) (a : Nat), lastPtr (l ++ [a]) = some a := by
  intro l a
  induction l with
  | nil => rfl
  | cons b l' ih =>
    cases l' with
    | nil => rfl
    | cons c l'' =>
      show lastPtr (c :: (l'' ++ [a])) = some a
      exact ih

theorem lastPtr_mem : ∀ (l : List Nat) (a : Nat), lastPtr l = some a → a ∈ l := by
  intro l
  induction l with
  | nil => intro a h; simp [lastPtr] at h
  | cons b l' ih =>
    intro a h
    cases l' with
    | nil =>
      simp [lastPtr] at h
      simp [h]
    | cons c l'' =>
      exact List.mem_cons_of_mem b (ih a h)

theorem lastPtr_cons_some : ∀ (l : List Nat) (b : Nat), ∃ a, lastPtr (b :: l) = some a := by
  intro l
  induction l with
  | nil => exact fun b => ⟨b, rfl⟩
  | cons c l'' ih => exact fun _ => ih c

/- ChainT structural lemmas. -/

theorem chainT_fn : ∀ (l₁ : List Nat) (h : List (Nat × WorkNode)) (o : Option Nat)
    (ts₁ : List WorkItem) (l₂ : List Nat) (ts₂ : List WorkItem),
    ChainT h o l₁ ts₁ → ChainT h o l₂ ts₂ → l₁ = l₂ ∧ ts₁ = ts₂ := by
  intro l₁
  induction l₁ with
  | nil =>
    intro h o ts₁ l₂ ts₂ hc1 hc2
    cases hc1
    cases hc2
    exact ⟨rfl, rfl⟩
  | cons a l' ih =>
    intro h o ts₁ l₂ ts₂ hc1 hc2
    cases hc1 with
    | cons hlk1 hch1 =>
      cases hc2 with
      | cons hlk2 hch2 =>
        rw [hlk1] at hlk2
        cases hlk2
        obtain ⟨he1, he2⟩ := ih h _ _ _ _ hch1 hch2
        rw [he1, he2]
        exact ⟨rfl, rfl⟩

theorem chainT_mem_tail : ∀ (l : List Nat) (h : List (Nat × WorkNode)) (o : Option Nat)
    (ts : List WorkItem) (a : Nat), ChainT h o l ts → a ∈ l →
    ∃ l₂ ts₂, ChainT h (some a) (a :: l₂) ts₂ ∧ l₂.length < l.length := by
  intro l
  induction l with
  | nil => intro h o ts a _ hm; simp at hm
  | cons b l' ih =>
    intro h o ts a hc hm
    cases hc with
    | cons hlk hch =>
      rcases List.mem_cons.mp hm with hab | hal
      · subst hab
        exact ⟨l', _, ChainT.cons hlk hch, Nat.lt_succ_self _⟩
      · obtain ⟨l₂, ts₂, hc₂, hlen⟩ := ih h _ _ a hch hal
        exact ⟨l₂, ts₂, hc₂, Nat.lt_trans hlen (Nat.lt_succ_self _)⟩

theorem chainT_nodup : ∀ (l : List Nat) (h : List (Nat × WorkNode)) (o : Option Nat)
    (ts : List WorkItem), ChainT h o l ts → l.Nodup := by
  intro l
  induction l with
  | nil => intro h o ts _; exact List.nodup_nil
  | cons a l' ih =>
    intro h o ts hc
    cases hc with
    | cons hlk hch =>
      refine List.nodup_cons.mpr ⟨?_, ih h _ _ hch⟩
      intro hmem
      obtain ⟨l₂, ts₂, hc₂, hlen⟩ := chainT_mem_tail l' h _ _ a hch hmem
      obtain ⟨he, _⟩ := chainT_fn (a :: l₂) h (some a) ts₂ (a :: l') _ hc₂
        (ChainT.cons hlk hch)
      have : l₂.length = l'.length := by
        have := congrArg List.length he
        simpa using this
      omega

theorem chainT_mem_lookup : ∀ (l : List Nat) (h : List (Nat × WorkNode)) (o : Option Nat)
    (ts : List WorkItem) (a : Nat), ChainT h o l ts → a ∈ l →
    ∃ nd, heapLookup h a = some nd := by
  intro l
  induction l with
  | nil => intro h o ts a _ hm; simp at hm
  | cons b l' ih =>
    intro h o ts a hc hm
    cases hc with
    | cons hlk hch =>
      rcases List.mem_cons.mp hm with hab | hal
      · subst hab; exact ⟨_, hlk⟩
      · exact ih h _ _ a hch hal

theorem chainT_keys_sub (l : List Nat) (h : List (Nat × WorkNode)) (o : Option Nat)
    (ts : List WorkItem) (hc : ChainT h o l ts) : ∀ a ∈ l, a ∈ heapKeys h := by
  intro a ha
  obtain ⟨nd, hnd⟩ := chainT_mem_lookup l h o ts a hc ha
  exact heapLookup_mem_keys h a nd hnd

theorem chainT_free : ∀ (l : List Nat) (h : List (Nat × WorkNode)) (o : Option Nat)
    (ts : List WorkItem) (a : Nat), ChainT h o l ts → a ∉ l →
    ChainT (heapFree h a) o l ts := by
  intro l
  induction l with
  | nil =>
    intro h o ts a hc _
    cases hc
    exact ChainT.nil _
  | cons b l' ih =>
    intro h o ts a hc ha
    cases hc with
    | cons hlk hch =>
      have hba : b ≠ a := fun he => ha (he ▸ List.mem_cons_self b l')
      refine ChainT.cons ?_ (ih h _ _ a hch (fun hm => ha (List.mem_cons_of_mem b hm)))
      rw [heapLookup_free, if_neg hba]
      exact hlk

theorem chainT_snoc (it : WorkItem) (f : Nat) (hp : List (Nat × WorkNode)) :
    ∀ (l : List Nat) (o : Option Nat) (ts : List WorkItem) (la : Nat) (lnd : WorkNode),
      ChainT hp o l ts → l.Nodup → lastPtr l = some la →
      heapLookup hp la = some lnd → (∀ k ∈ heapKeys hp, k < f) →
      ChainT (heapUpdate ((f, WorkNode.mk it none) :: hp) la (WorkNode.mk lnd.item (some f)))
        o (l ++ [f]) (ts ++ [it]) := by
  intro l
  induction l with
  | nil => intro o ts la lnd _ _ hl; simp [lastPtr] at hl
  | cons a l' ih =>
    intro o ts la lnd hc hnd hl hla hb
    cases hc with
    | cons hlk hch =>
      rename_i nd ts0
      obtain ⟨ndi, ndn⟩ := nd
      have haf : a < f := hb a (heapLookup_mem_keys hp a _ hlk)
      have hlaf : la < f := hb la (heapLookup_mem_keys hp la lnd hla)
      have hfa : ¬ f = a := fun he => absurd (he ▸ haf) (lt_irrefl f)
      cases l' with
      | nil =>
        cases hch
        have hala : a = la := by simpa [lastPtr] using hl
        subst hala
        have hnd_lnd : WorkNode.mk ndi none = lnd := by
          rw [hlk] at hla
          exact Option.some.inj hla
        have hk1 : heapLookup
            (heapUpdate ((f, WorkNode.mk it none) :: hp) a (WorkNode.mk lnd.item (some f))) a =
            some (WorkNode.mk lnd.item (some f)) := by
          rw [heapLookup_update, if_pos rfl, heapLookup_cons, if_neg hfa, hlk]
          rfl
        have hk2 : heapLookup
            (heapUpdate ((f, WorkNode.mk it none) :: hp) a (WorkNode.mk lnd.item (some f))) f =
            some (WorkNode.mk it none) := by
          rw [heapLookup_update, if_neg hfa, heapLookup_cons, if_pos rfl]
        have hchain2 : ChainT
            (heapUpdate ((f, WorkNode.mk it none) :: hp) a (WorkNode.mk lnd.item (some f)))
            (some f) [f] [it] := ChainT.cons hk2 (ChainT.nil _)
        have := ChainT.cons hk1 hchain2
        have hitem : lnd.item = ndi := by rw [← hnd_lnd]
        simpa [hitem] using this
      | cons c l'' =>
        have hmem : la ∈ c :: l'' := lastPtr_mem _ la hl
        have hna : a ∉ c :: l'' := (List.nodup_cons.mp hnd).1
        have hala : ¬ a = la := fun he => hna (he ▸ hmem)
        have hk1 : heapLookup
            (heapUpdate ((f, WorkNode.mk it none) :: hp) la (WorkNode.mk lnd.item (some f))) a =
            some (WorkNode.mk ndi ndn) := by
          rw [heapLookup_update, if_neg hala, heapLookup_cons, if_neg hfa, hlk]
        have hrest := ih ndn ts0 la lnd hch (List.nodup_cons.mp hnd).2 hl hla hb
        exact ChainT.cons hk1 hrest

/- Well-formedness preservation for the queue operations. -/

theorem qwf_enqueue (q : QState) (addrs : List Nat) (ts : List WorkItem) (it : WorkItem)
    (hwf : QWF q addrs ts) :
    ∃ q', q_enqueue q it = some q' ∧ QWF q' (addrs ++ [q.fresh]) (ts ++ [it]) ∧
      q'.fresh = q.fresh + 1 := by
  obtain ⟨qh, qf, ql, qfr⟩ := q
  obtain ⟨hb, hc, hl⟩ := hwf
  cases qf with
  | none =>
    cases hc
    refine ⟨⟨(qfr, WorkNode.mk it none) :: qh, some qfr, some qfr, qfr + 1⟩,
      rfl, ⟨?_, ?_, ?_⟩, rfl⟩
    · intro k hk
      have hk' : k = qfr ∨ k ∈ heapKeys qh := by simpa [heapKeys] using hk
      rcases hk' with he | hm
      · subst he
        exact Nat.lt_succ_self k
      · exact Nat.lt_trans (hb k hm) (Nat.lt_succ_self _)
    · have hk0 : heapLookup ((qfr, WorkNode.mk it none) :: qh) qfr =
          some (WorkNode.mk it none) := by
        rw [heapLookup_cons, if_pos rfl]
      exact ChainT.cons hk0 (ChainT.nil _)
    · rfl
  | some a0 =>
    cases hc with
    | cons hlk hch =>
      rename_i nd addrs' ts'
      obtain ⟨la, hla⟩ := lastPtr_cons_some addrs' a0
      rw [hla] at hl
      subst hl
      have hmem : la ∈ a0 :: addrs' := lastPtr_mem _ la hla
      obtain ⟨lnd, hlnd⟩ := chainT_mem_lookup _ qh _ _ la (ChainT.cons hlk hch) hmem
      have hlaf : la < qfr := hb la (heapLookup_mem_keys qh la lnd hlnd)
      have hfla : ¬ qfr = la := fun he => absurd (he ▸ hlaf) (lt_irrefl qfr)
      have hlnd1 : heapLookup ((qfr, WorkNode.mk it none) :: qh) la = some lnd := by
        rw [heapLookup_cons, if_neg hfla, hlnd]
      refine ⟨⟨heapUpdate ((qfr, WorkNode.mk it none) :: qh) la
          (WorkNode.mk lnd.item (some qfr)), some a0, some qfr, qfr + 1⟩,
        ?_, ⟨?_, ?_, ?_⟩, rfl⟩
      · simp only [q_enqueue, hlnd1]
      · intro k hk
        rw [show (⟨heapUpdate ((qfr, WorkNode.mk it none) :: qh) la
            (WorkNode.mk lnd.item (some qfr)), some a0, some qfr, qfr + 1⟩ : QState).heap =
            heapUpdate ((qfr, WorkNode.mk it none) :: qh) la
            (WorkNode.mk lnd.item (some qfr)) from rfl, heapKeys_update] at hk
        have hk' : k = qfr ∨ k ∈ heapKeys qh := by simpa [heapKeys] using hk
        rcases hk' with he | hm
        · subst he
          exact Nat.lt_succ_self k
        · exact Nat.lt_trans (hb k hm) (Nat.lt_succ_self _)
      · exact chainT_snoc it qfr qh (a0 :: addrs') (some a0) (nd.item :: ts') la lnd
          (ChainT.cons hlk hch) (chainT_nodup _ qh _ _ (ChainT.cons hlk hch)) hla hlnd hb
      · show some qfr = lastPtr ((a0 :: addrs') ++ [qfr])
        rw [lastPtr_concat]

theorem qwf_get_cons (q : QState) (a : Nat) (l : List Nat) (ts : List WorkItem)
    (hwf : QWF q (a :: l) ts) :
    ∃ q' nd ts', ts = nd.item :: ts' ∧ heapLookup q.heap a = some nd ∧
      tpool_work_get q = some (q', some a) ∧ QWF q' l ts' ∧
      q'.heap = q.heap ∧ q'.fresh = q.fresh := by
  obtain ⟨qh, qf, ql, qfr⟩ := q
  obtain ⟨hb, hc, hl⟩ := hwf
  cases hc with
  | cons hlk hch =>
    rename_i nd ts'
    obtain ⟨ndi, ndn⟩ := nd
    cases ndn with
    | none =>
      cases hch
      exact ⟨⟨qh, none, none, qfr⟩, ⟨ndi, none⟩, [], rfl, hlk,
        by simp only [tpool_work_get, hlk], ⟨hb, ChainT.nil _, rfl⟩, rfl, rfl⟩
    | some b =>
      cases hch with
      | cons hlk2 hch2 =>
        rename_i nd2 l2 ts2
        refine ⟨⟨qh, some b, ql, qfr⟩, ⟨ndi, some b⟩, nd2.item :: ts2, rfl, hlk,
          by simp only [tpool_work_get, hlk], ⟨hb, ChainT.cons hlk2 hch2, ?_⟩, rfl, rfl⟩
        exact hl

theorem qwf_get_nil (q : QState) (ts : List WorkItem) (hwf : QWF q [] ts) :
    ts = [] ∧ tpool_work_get q = some (q, none) := by
  obtain ⟨qh, qf, ql, qfr⟩ := q
  obtain ⟨hb, hc, hl⟩ := hwf
  cases hc
  exact ⟨rfl, rfl⟩

theorem qwf_free (q : QState) (addrs : List Nat) (ts : List WorkItem) (a : Nat)
    (hwf : QWF q addrs ts) (ha : a ∉ addrs) :
    QWF ⟨heapFree q.heap a, q.work_first, q.work_last, q.fresh⟩ addrs ts := by
  obtain ⟨hb, hc, hl⟩ := hwf
  exact ⟨fun k hk => hb k (heapKeys_free_sub q.heap a k hk),
    chainT_free addrs q.heap q.work_first ts a hc ha, hl⟩

theorem sweepFrom_spec : ∀ (l : List Nat) (fuel : Nat) (hp : List (Nat × WorkNode))
    (o : Option Nat) (ts : List WorkItem),
    ChainT hp o l ts → l.Nodup → l.length ≤ fuel →
    ∃ hp', sweepFrom fuel hp o = some hp' ∧
      ∀ b, heapLookup hp' b = if b ∈ l then none else heapLookup hp b := by
  intro l
  induction l with
  | nil =>
    intro fuel hp o ts hc _ _
    cases hc
    exact ⟨hp, by cases fuel <;> rfl, fun b => by simp⟩
  | cons a l' ih =>
    intro fuel hp o ts hc hnd hlen
    cases hc with
    | cons hlk hch =>
      rename_i nd ts'
      cases fuel with
      | zero => simp at hlen
      | succ f =>
        have hlen' : l'.length ≤ f := by
          simp only [List.length_cons] at hlen
          omega
        have hna : a ∉ l' := (List.nodup_cons.mp hnd).1
        have hch' : ChainT (heapFree hp a) nd.next l' ts' :=
          chainT_free l' hp nd.next ts' a hch hna
        obtain ⟨hp', hs, hlook⟩ := ih f (heapFree hp a) nd.next ts' hch'
          (List.nodup_cons.mp hnd).2 hlen'
        refine ⟨hp', ?_, ?_⟩
        · simp only [sweepFrom, hlk]
          exact hs
        · intro b
          by_cases hba : b = a
          · subst hba
            have hthis := hlook b
            rw [heapLookup_free, if_pos rfl, ite_self] at hthis
            rw [hthis, if_pos (List.mem_cons_self b l')]
          · rw [hlook b, heapLookup_free, if_neg hba]
            by_cases hbl : b ∈ l'
            · rw [if_pos hbl, if_pos (List.mem_cons_of_mem a hbl)]
            · rw [if_neg hbl,
                if_neg (fun hm => (List.mem_cons.mp hm).elim (fun he => hba he) hbl)]

theorem q_sweep_spec (q : QState) (addrs : List Nat) (ts : List WorkItem)
    (hwf : QWF q addrs ts) :
    ∃ q', q_sweep q = some q' ∧ q'.work_first = q.work_first ∧
      q'.work_last = q.work_last ∧ q'.fresh = q.fresh ∧
      ∀ b, heapLookup q'.heap b = if b ∈ addrs then none else heapLookup q.heap b := by
  obtain ⟨hb, hc, hl⟩ := hwf
  have hnd := chainT_nodup addrs q.heap q.work_first ts hc
  have hsub : addrs ⊆ heapKeys q.heap := fun a ha => chainT_keys_sub addrs q.heap _ ts hc a ha
  have hlen : addrs.length ≤ q.heap.length := by
    have h1 := (List.subperm_of_subset hnd hsub).length_le
    simpa [heapKeys] using h1
  obtain ⟨hp', hs, hlook⟩ := sweepFrom_spec addrs q.heap.length q.heap q.work_first ts hc hnd hlen
  refine ⟨⟨hp', q.work_first, q.work_last, q.fresh⟩, ?_, rfl, rfl, rfl, hlook⟩
  rw [q_sweep, hs]
  rfl

/- Consequences of well-formedness for the head/tail pointer invariant. -/

theorem qwf_head_tail_inv (q : QState) (addrs : List Nat) (ts : List WorkItem)
    (hwf : QWF q addrs ts) : head_tail_inv q := by
  obtain ⟨qh, qf, ql, qfr⟩ := q
  obtain ⟨hb, hc, hl⟩ := hwf
  cases hc with
  | nil =>
    rw [show lastPtr [] = none from rfl] at hl
    subst hl
    constructor
    · intro hv
      rw [tail_valid] at hv
      simp at hv
    · intro hf
      exact absurd rfl hf
  | cons hlk hch =>
    rename_i a nd addrs' ts'
    constructor
    · intro _
      simp
    · intro _
      obtain ⟨la, hla⟩ := lastPtr_cons_some addrs' a
      rw [hla] at hl
      subst hl
      obtain ⟨lnd, hlnd⟩ := chainT_mem_lookup _ qh _ _ la (ChainT.cons hlk hch)
        (lastPtr_mem _ la hla)
      show (heapLookup qh la).isSome = true
      rw [hlnd]
      rfl

theorem qwf_single (q : QState) (a : Nat) (ts : List WorkItem) (hwf : QWF q [a] ts) :
    q.work_first = some a ∧ q.work_last = some a := by
  obtain ⟨qh, qf, ql, qfr⟩ := q
  obtain ⟨hb, hc, hl⟩ := hwf
  cases hc with
  | cons hlk hch => exact ⟨rfl, hl⟩

/- Part 3: FIFO order through the queue (cli.c 184-191 enqueue, 62-80 dequeue,
102-105 node free after execution), for a single producer and any number of
workers, serialized by the work_mutex. -/

/-- One scheduler event: the producer runs the enqueue critical section of
pool_add_work, or a worker runs its dequeue critical section (cli.c 88-100,
reached only when work_first != NULL and stop is false) followed by executing
the task and freeing the dequeued node (cli.c 102-105). -/
inductive QEv where
  | enq
  | deq
deriving DecidableEq

/-- A run state: the shared queue, the single producer's not-yet-submitted items
in program order, and the items dequeued so far in dequeue order. -/
structure FifoSt where
  q : QState
  src : List WorkItem
  deqd : List WorkItem
deriving DecidableEq

def fifoStep (s : FifoSt) : QEv → Option FifoSt
  | QEv.enq =>
    match s.src with
    | [] => none
    | it :: rest =>
      match q_enqueue s.q it with
      | none => none
      | some q' => some ⟨q', rest, s.deqd⟩
  | QEv.deq =>
    match tpool_work_get s.q with
    | none => none
    | some (_, none) => none
    | some (q', some a) =>
      match heapLookup q'.heap a with
      | none => none
      | some nd =>
        some ⟨⟨heapFree q'.heap a, q'.work_first, q'.work_last, q'.fresh⟩, s.src,
          s.deqd ++ [nd.item]⟩

def fifoRun (s : FifoSt) : List QEv → Option FifoSt
  | [] => some s
  | e :: evs =>
    match fifoStep s e with
    | none => none
    | some s' => fifoRun s' evs

/-- A fresh pool's queue (pool_create, cli.c 134-135: work_first = work_last =
NULL, nothing allocated) with the producer's tasks pending submission. -/
def fifoInit (src : List WorkItem) : FifoSt := ⟨⟨[], none, none, 0⟩, src, []⟩

theorem fifoRun_inv : ∀ (evs : List QEv) (s0 s : FifoSt) (addrs : List Nat)
    (ts : List WorkItem), QWF s0.q addrs ts → fifoRun s0 evs = some s →
    ∃ addrs' ts', QWF s.q addrs' ts' ∧
      s.deqd ++ ts' ++ s.src = s0.deqd ++ ts ++ s0.src := by
  intro evs
  induction evs with
  | nil =>
    intro s0 s addrs ts hwf hrun
    simp [fifoRun] at hrun
    subst hrun
    exact ⟨addrs, ts, hwf, rfl⟩
  | cons e evs ih =>
    intro s0 s addrs ts hwf hrun
    cases he : fifoStep s0 e with
    | none =>
      rw [fifoRun, he] at hrun
      simp at hrun
    | some s1 =>
      rw [fifoRun, he] at hrun
      cases e with
      | enq =>
        cases hsrc : s0.src with
        | nil =>
          simp [fifoStep, hsrc] at he
        | cons it rest =>
          obtain ⟨q', heq, hwf', _⟩ := qwf_enqueue s0.q addrs ts it hwf
          simp only [fifoStep, hsrc, heq] at he
          injection he with he1
          subst he1
          obtain ⟨addrs2, ts2, hwf2, heq2⟩ := ih _ s _ _ hwf' hrun
          refine ⟨addrs2, ts2, hwf2, ?_⟩
          rw [heq2]
          simp [hsrc, List.append_assoc]
      | deq =>
        cases addrs with
        | nil =>
          obtain ⟨hts, hget⟩ := qwf_get_nil s0.q ts hwf
          simp [fifoStep, hget] at he
        | cons a l =>
          obtain ⟨q', nd, ts', htseq, hlook, hget, hwf', hheap, _⟩ :=
            qwf_get_cons s0.q a l ts hwf
          have hnd : (a :: l).Nodup := chainT_nodup _ _ _ _ hwf.2.1
          have hna : a ∉ l := (List.nodup_cons.mp hnd).1
          simp only [fifoStep, hget, hheap, hlook] at he
          injection he with he1
          subst he1
          have hfree := qwf_free q' l ts' a hwf' hna
          rw [hheap] at hfree
          obtain ⟨addrs2, ts2, hwf2, heq2⟩ := ih _ s _ _ hfree hrun
          refine ⟨addrs2, ts2, hwf2, ?_⟩
          rw [heq2]
          simp [htseq, List.append_assoc]

/-- Claim C4: with a single producer submitting tasks T1...Tn and no concurrent
stop, pool_add_work appends at the tail and tpool_work_get removes from the
head, so for every interleaving of enqueue and dequeue critical sections the
dequeued sequence is exactly a prefix of the submission order, and dequeued
items followed by the still-queued chain followed by the unsubmitted rest
reconstitute the submission order. -/
theorem pool_fifo_order (T : List WorkItem) (evs : List QEv) (s : FifoSt)
    (h : fifoRun (fifoInit T) evs = some s) :
    ∃ addrs ts, QWF s.q addrs ts ∧ s.deqd ++ ts ++ s.src = T ∧
      s.deqd = T.take s.deqd.length := by
  have hwf0 : QWF (fifoInit T).q [] [] :=
    ⟨by intro k hk; simp [fifoInit, heapKeys] at hk, ChainT.nil _, rfl⟩
  obtain ⟨addrs, ts, hwf, heq⟩ := fifoRun_inv evs (fifoInit T) s [] [] hwf0 h
  have heq' : s.deqd ++ ts ++ s.src = T := by simpa [fifoInit] using heq
  refine ⟨addrs, ts, hwf, heq', ?_⟩
  rw [← heq', List.append_assoc]
  exact (List.take_left s.deqd (ts ++ s.src)).symm

/- Part 4: pool handle operations and the pool state machine (cli.c 31-40,
82-214). -/

/-- pool_work_create (cli.c 42-54): NULL when func is NULL, otherwise the task
payload for a fresh node (the node allocation itself is folded into q_enqueue,
whose fresh node carries next = NULL exactly as cli.c 52). -/
def pool_work_create (func : Option Nat) (text : String) (pattern : Nat) :
    Option WorkItem :=
  match func with
  | none => none
  | some f => some ⟨f, text, pattern⟩

/-- pool_add_work (cli.c 173-197) at the pool-handle level: result is the new
handle state, whether work_cond was broadcast (cli.c 193), and the returned
bool.  The outer none marks undefined behavior (the enqueue would write through
a dangling work_last), impossible on well-formed pools. -/
def pool_add_work (tm : Option QState) (func : Option Nat) (text : String)
    (pattern : Nat) : Option (Option QState × Bool × Bool) :=
  match tm with
  | none => some (none, false, false)
  | some q =>
    match pool_work_create func text pattern with
    | none => some (some q, false, false)
    | some it =>
      match q_enqueue q it with
      | none => none
      | some q' => some (some q', true, true)

/-- The mutex-protected shared state of struct pool (cli.c 31-40).  The pending
queue is abstracted to the task ids it holds in order, justified by qwf_enqueue
and qwf_get_cons: the pointer chain behaves as append at the tail and removal at
the head.  inflight / executed / discarded are history fields recording which
task ids were dequeued and are running, have had their func run, or were freed
unrun by the destroy sweep; tasks are identified by submission index (next_id
stamps them). -/
structure PoolSt where
  queue : List Nat
  working_cnt : Nat
  thread_cnt : Nat
  stop : Bool
  inflight : List Nat
  executed : List Nat
  discarded : List Nat
  next_id : Nat
deriving DecidableEq

/-- pool_create(num) (cli.c 122-143): calloc zero-fills (empty queue,
working_cnt 0, stop false), then thread_cnt = num workers are spawned. -/
def pool_create (num : Nat) : PoolSt :=
  ⟨[], 0, num, false, [], [], [], 0⟩

/-- The enqueue critical section of pool_add_work (cli.c 184-194), stamping the
task with the next id. -/
def pool_submit (s : PoolSt) : PoolSt :=
  { s with queue := s.queue ++ [s.next_id], next_id := s.next_id + 1 }

/-- A worker's take critical section (cli.c 88-100): leave the wait loop with
the queue non-empty and stop false, dequeue the head via tpool_work_get,
working_cnt++. -/
def pool_take (s : PoolSt) (rest : List Nat) (t : Nat) : PoolSt :=
  { s with
    queue := rest,
    working_cnt := s.working_cnt + 1,
    inflight := s.inflight ++ [t] }

/-- A worker finishing a task (cli.c 102-112): run work->func outside the lock,
free the node, re-acquire the mutex, working_cnt--, signal working_cond if
idle. -/
def pool_finish (s : PoolSt) (t : Nat) : PoolSt :=
  { s with
    inflight := s.inflight.erase t,
    executed := s.executed ++ [t],
    working_cnt := s.working_cnt - 1 }

/-- A worker observing stop and exiting (cli.c 94-96 break, then 115-118):
thread_cnt--, signal working_cond. -/
def pool_worker_quit (s : PoolSt) : PoolSt :=
  { s with thread_cnt := s.thread_cnt - 1 }

/-- The destroy sweep critical section (cli.c 153-162): free every node still
in the queue (those tasks never run), set stop = true, broadcast work_cond. -/
def pool_destroy_sweep (s : PoolSt) : PoolSt :=
  { s with queue := [], discarded := s.discarded ++ s.queue, stop := true }

inductive PEv where
  | submit
  | take
  | finish (t : Nat)
  | quit
  | sweep
deriving DecidableEq

/-- One mutex-serialized step of the pool.  take requires stop = false because a
worker breaks out of its loop before dequeuing whenever it observes stop
(cli.c 94-96); finish carries no stop guard because the task runs outside the
lock and always completes (cli.c 100-105); submit carries no stop guard,
exactly as pool_add_work (cli.c 173-197) checks only the handle and func. -/
inductive PStep : PoolSt → PEv → PoolSt → Prop where
  | submit (s : PoolSt) : PStep s PEv.submit (pool_submit s)
  | take (s : PoolSt) (t : Nat) (rest : List Nat) :
      s.stop = false → s.queue = t :: rest → s.working_cnt < s.thread_cnt →
      PStep s PEv.take (pool_take s rest t)
  | finish (s : PoolSt) (t : Nat) : t ∈ s.inflight →
      PStep s (PEv.finish t) (pool_finish s t)
  | quit (s : PoolSt) : s.stop = true → s.working_cnt < s.thread_cnt →
      PStep s PEv.quit (pool_worker_quit s)
  | sweep (s : PoolSt) : PStep s PEv.sweep (pool_destroy_sweep s)

/-- Pool states reachable from s0. -/
inductive PReach (s0 : PoolSt) : PoolSt → Prop where
  | refl : PReach s0 s0
  | step {s : PoolSt} {e : PEv} {s' : PoolSt} :
      PReach s0 s → PStep s e s' → PReach s0 s'

/-- The negated wait-loop guard of pool_wait (cli.c 205-212): pool_wait returns
(breaks out of its loop) exactly when this holds of the state it observes under
the mutex; otherwise it waits on working_cond and re-checks. -/
def pool_wait_exit (s : PoolSt) : Bool :=
  !((!s.stop && s.working_cnt != 0) || (s.stop && s.thread_cnt != 0))

/-- pool_wait (cli.c 199-214) at the handle level: true when the call returns
without blocking, given the state it observes; a NULL handle returns at once
(cli.c 200-202) reading and writing nothing; a non-null pool is never mutated
by pool_wait, which only reads the guard fields. -/
def pool_wait_returns (tm : Option PoolSt) : Bool :=
  match tm with
  | none => true
  | some s => pool_wait_exit s

/-- pool_destroy (cli.c 145-171) at the handle level: a NULL handle returns
immediately with no effect (cli.c 149-151); otherwise the sweep critical
section runs (cli.c 153-162) and the call then waits for the workers and frees
the pool; the returned value is the state just after the sweep. -/
def pool_destroy_handle (tm : Option PoolSt) : Option PoolSt :=
  match tm with
  | none => none
  | some s => some (pool_destroy_sweep s)

/-- Every task id mentioned anywhere in the pool, by region. -/
def poolIds (s : PoolSt) : List Nat :=
  s.queue ++ s.inflight ++ s.executed ++ s.discarded

/-- Inductive invariant: task ids are pairwise distinct across all regions,
stamped below next_id, and only the sweep (which also sets stop) discards. -/
def PoolInv (s : PoolSt) : Prop :=
  (poolIds s).Nodup ∧ (∀ t ∈ poolIds s, t < s.next_id) ∧
    (s.discarded ≠ [] → s.stop = true)

theorem pstep_inv (s s' : PoolSt) (e : PEv) (hs : PStep s e s') (hinv : PoolInv s) :
    PoolInv s' := by
  obtain ⟨hnd, hbound, hdisc⟩ := hinv
  cases hs with
  | submit =>
    have hperm : (poolIds (pool_submit s)).Perm (s.next_id :: poolIds s) := by
      refine List.perm_iff_count.mpr (fun a => ?_)
      simp [poolIds, pool_submit, List.count_append, List.count_cons]
      omega
    refine ⟨?_, ?_, fun hd => hdisc hd⟩
    · exact hperm.nodup_iff.mpr (List.nodup_cons.mpr
        ⟨fun hm => absurd (hbound _ hm) (lt_irrefl _), hnd⟩)
    · intro t ht
      rcases List.mem_cons.mp (hperm.subset ht) with he | hm
      · rw [he]
        exact Nat.lt_succ_self _
      · exact Nat.lt_trans (hbound t hm) (Nat.lt_succ_self _)
  | take t rest hstop hq hwt =>
    have hperm : (poolIds (pool_take s rest t)).Perm (poolIds s) := by
      refine List.perm_iff_count.mpr (fun a => ?_)
      simp [poolIds, pool_take, hq, List.count_append, List.count_cons]
      omega
    exact ⟨hperm.nodup_iff.mpr hnd, fun x hx => hbound x (hperm.subset hx),
      fun hd => hdisc hd⟩
  | finish t htin =>
    have hcnt : 0 < s.inflight.count t := List.count_pos_iff.mpr htin
    have hperm : (poolIds (pool_finish s t)).Perm (poolIds s) := by
      refine List.perm_iff_count.mpr (fun a => ?_)
      by_cases hat : a = t
      · subst hat
        simp [poolIds, pool_finish, List.count_append, List.count_cons,
          List.count_erase_self]
        omega
      · simp [poolIds, pool_finish, List.count_append, List.count_cons,
          List.count_erase_of_ne hat]
        exact fun he => hat he.symm
    exact ⟨hperm.nodup_iff.mpr hnd, fun x hx => hbound x (hperm.subset hx),
      fun hd => hdisc hd⟩
  | quit hstop hwt => exact ⟨hnd, hbound, hdisc⟩
  | sweep =>
    have hperm : (poolIds (pool_destroy_sweep s)).Perm (poolIds s) := by
      refine List.perm_iff_count.mpr (fun a => ?_)
      simp [poolIds, pool_destroy_sweep, List.count_append]
      omega
    exact ⟨hperm.nodup_iff.mpr hnd, fun x hx => hbound x (hperm.subset hx),
      fun _ => rfl⟩

theorem preach_inv (n : Nat) (s : PoolSt) (h : PReach (pool_create n) s) : PoolInv s := by
  induction h with
  | refl =>
    exact ⟨by simp [poolIds, pool_create], by simp [poolIds, pool_create],
      by simp [pool_create]⟩
  | step hr hs ih => exact pstep_inv _ _ _ hs ih

/- Small inversion helpers used by the claim theorems. -/

theorem chainT_nil_inv (h : List (Nat × WorkNode)) (o : Option Nat) (ts : List WorkItem)
    (hc : ChainT h o [] ts) : o = none ∧ ts = [] := by
  cases hc
  exact ⟨rfl, rfl⟩

theorem chainT_cons_first (h : List (Nat × WorkNode)) (o : Option Nat) (a : Nat)
    (l : List Nat) (ts : List WorkItem) (hc : ChainT h o (a :: l) ts) : o = some a := by
  cases hc
  rfl

theorem tail_valid_none (q : QState) (h : q.work_last = none) : tail_valid q = false := by
  rw [tail_valid, h]

theorem tail_valid_some (q : QState) (a : Nat) (h : q.work_last = some a) :
    tail_valid q = (heapLookup q.heap a).isSome := by
  rw [tail_valid, h]

/- Part 5: the single-threaded main (cli.c 324-349). -/

/-- One iteration of main's read loop body (cli.c 332-341) on an already-split
candidate line: score the candidate with the external scorer and insert it into
the collector iff the score is strictly positive (cli.c 337-340); otherwise the
candidate is dropped, which is a filter, not an error. -/
def main_step (score : String → Int) (L : FzfLinkedList) (c : String) : FzfLinkedList :=
  if score c > 0 then fzf_list_insert L ⟨c, score c⟩ else L

/-- The collector built by main's read loop over all input lines (cli.c 327-341). -/
def main_collect (score : String → Int) (cands : List String) : FzfLinkedList :=
  cands.foldl (main_step score) fzf_list_create

/-- The single-threaded main (cli.c 324-349) over already-split candidate lines,
with the external scorer as a parameter: fold the loop body over stdin, then
fzf_list_print the collector.  Result: the stdout lines and the exit code
(cli.c 348: return 0). -/
def main_model (score : String → Int) (cands : List String) : List String × Int :=
  (fzf_list_print (main_collect score cands), 0)

theorem main_step_sorted (score : String → Int) (L : FzfLinkedList) (c : String)
    (h : List.Sorted scoreGE L.head) : List.Sorted scoreGE (main_step score L c).head := by
  rw [main_step]
  by_cases hs : score c > 0
  · rw [if_pos hs]
    exact insert_list_sorted _ _ h
  · rw [if_neg hs]
    exact h

theorem foldl_main_step_sorted (score : String → Int) (cands : List String) :
    ∀ L : FzfLinkedList, List.Sorted scoreGE L.head →
      List.Sorted scoreGE (cands.foldl (main_step score) L).head := by
  induction cands with
  | nil => exact fun L h => h
  | cons c cs ih => exact fun L h => ih _ (main_step_sorted score L c h)

theorem foldl_main_step_perm (score : String → Int) (cands : List String) :
    ∀ L : FzfLinkedList, ((cands.foldl (main_step score) L).head).Perm
      (L.head ++ (cands.filter (fun x => decide (0 < score x))).map
        (fun x => FzfTuple.mk x (score x))) := by
  induction cands with
  | nil => intro L; simp
  | cons c cs ih =>
    intro L
    rw [List.foldl_cons]
    by_cases hs : score c > 0
    · have hstep : main_step score L c = fzf_list_insert L ⟨c, score c⟩ := by
        rw [main_step, if_pos hs]
      have hfil : List.filter (fun x => decide (0 < score x)) (c :: cs) =
          c :: List.filter (fun x => decide (0 < score x)) cs := by
        simp [List.filter_cons, hs]
      rw [hstep, hfil]
      have h1 := ih (fzf_list_insert L ⟨c, score c⟩)
      have h2 : (insert_list ⟨c, score c⟩ L.head ++
          (List.filter (fun x => decide (0 < score x)) cs).map
            (fun x => FzfTuple.mk x (score x))).Perm
          ((⟨c, score c⟩ :: L.head) ++
            (List.filter (fun x => decide (0 < score x)) cs).map
              (fun x => FzfTuple.mk x (score x))) :=
        (insert_list_perm ⟨c, score c⟩ L.head).append_right _
      have h3 : ((⟨c, score c⟩ :: L.head) ++
          (List.filter (fun x => decide (0 < score x)) cs).map
            (fun x => FzfTuple.mk x (score x))).Perm
          (L.head ++ FzfTuple.mk c (score c) ::
            (List.filter (fun x => decide (0 < score x)) cs).map
              (fun x => FzfTuple.mk x (score x))) := by
        simpa using List.perm_middle.symm
      simpa using (h1.trans h2).trans h3
    · have hstep : main_step score L c = L := by
        rw [main_step, if_neg hs]
      have hfil : List.filter (fun x => decide (0 < score x)) (c :: cs) =
          List.filter (fun x => decide (0 < score x)) cs := by
        simp [List.filter_cons, hs]
      rw [hstep, hfil]
      exact ih L

/-- Claim C6: for every query (compiled pattern abstracted into the scorer) and
every sequence of candidate lines, the single-threaded main prints exactly the
candidates whose score is strictly positive (non-positive scores are silently
discarded, not errors), formatted "%s (%d)", in descending-score order after
all input is consumed, and exits with code 0. -/
theorem main_filters_sorts_exit_zero (score : String → Int) (cands : List String) :
    (main_model score cands).2 = 0 ∧
    (main_model score cands).1 = ((main_collect score cands).head).map fmtTuple ∧
    List.Sorted scoreGE ((main_collect score cands).head) ∧
    ((main_collect score cands).head).Perm
      ((cands.filter (fun x => decide (0 < score x))).map
        (fun x => FzfTuple.mk x (score x))) := by
  refine ⟨rfl, print_loop_eq_map _, ?_, ?_⟩
  · exact foldl_main_step_sorted score cands fzf_list_create (by simp [fzf_list_create])
  · simpa [main_collect, fzf_list_create] using
      foldl_main_step_perm score cands fzf_list_create

/- Claim theorems for the pool. -/

/-- The empty queue of a fresh pool, shared by several witnesses. -/
def qEmptyPool : QState := ⟨[], none, none, 0⟩

theorem qwf_empty : QWF qEmptyPool [] [] :=
  ⟨by intro k hk; simp [qEmptyPool, heapKeys] at hk, ChainT.nil _, rfl⟩

/-- Claim C7: pool_add_work returns false, with no task enqueued and no
broadcast, whenever the pool handle is NULL (cli.c 175-177) or the task
function is NULL (pool_work_create returns NULL, cli.c 44-46 and 180-182);
otherwise it appends the task to the tail of the pending queue, broadcasts
work_cond, and returns true (cli.c 184-196). -/
theorem pool_add_work_null_checks (tm : Option QState) (func : Option Nat)
    (text : String) (pattern : Nat) :
    (tm = none → pool_add_work tm func text pattern = some (none, false, false)) ∧
    (func = none → pool_add_work tm func text pattern = some (tm, false, false)) ∧
    (∀ q f addrs ts, tm = some q → func = some f → QWF q addrs ts →
      ∃ q', pool_add_work tm func text pattern = some (some q', true, true) ∧
        QWF q' (addrs ++ [q.fresh]) (ts ++ [WorkItem.mk f text pattern])) := by
  refine ⟨?_, ?_, ?_⟩
  · intro h
    subst h
    rfl
  · intro h
    subst h
    cases tm with
    | none => rfl
    | some q => rfl
  · intro q f addrs ts htm hfunc hwf
    subst htm
    subst hfunc
    obtain ⟨q', heq, hwf', _⟩ := qwf_enqueue q addrs ts ⟨f, text, pattern⟩ hwf
    refine ⟨q', ?_, hwf'⟩
    simp only [pool_add_work, pool_work_create, heq]

/-- Claim C7, witness: the three branches at concrete inputs. -/
theorem pool_add_work_null_checks_witness :
    pool_add_work none (some 1) "x" 2 = some (none, false, false) ∧
    pool_add_work (some qEmptyPool) none "x" 2 = some (some qEmptyPool, false, false) ∧
    (∃ q', pool_add_work (some qEmptyPool) (some 1) "x" 2 = some (some q', true, true) ∧
      QWF q' ([] ++ [qEmptyPool.fresh]) ([] ++ [WorkItem.mk 1 "x" 2])) :=
  ⟨(pool_add_work_null_checks none (some 1) "x" 2).1 rfl,
   (pool_add_work_null_checks (some qEmptyPool) none "x" 2).2.1 rfl,
   (pool_add_work_null_checks (some qEmptyPool) (some 1) "x" 2).2.2 qEmptyPool 1 [] []
     rfl rfl qwf_empty⟩

/-- The concrete queue after one enqueue into a fresh pool. -/
def qCexEnq : QState := ⟨[(0, WorkNode.mk (WorkItem.mk 1 "t" 2) none)], some 0, some 0, 1⟩

/-- The same queue after the pool_destroy sweep: node freed, pointers untouched. -/
def qCexSwept : QState := ⟨[], some 0, some 0, 1⟩

/-- Claim C8, counterexample: the sweep in pool_destroy (cli.c 154-159) frees
every queued node but leaves work_first and work_last untouched, so after
sweeping a one-element queue work_first is still non-null while work_last no
longer points at an allocated node: the claimed invariant does not survive the
sweep. -/
theorem queue_sweep_breaks_tail_validity :
    q_enqueue ⟨[], none, none, 0⟩ (WorkItem.mk 1 "t" 2) = some qCexEnq ∧
    tail_valid qCexEnq = true ∧ qCexEnq.work_first ≠ none ∧
    q_sweep qCexEnq = some qCexSwept ∧
    qCexSwept.work_first ≠ none ∧ tail_valid qCexSwept = false :=
  ⟨rfl, rfl, fun h => Option.noConfusion h, rfl, fun h => Option.noConfusion h, rfl⟩

/-- Claim C8 (amended): on well-formed queues, pool_add_work's enqueue and
tpool_work_get preserve well-formedness and with it the invariant that the tail
pointer is a valid node pointer iff the head pointer is non-null (and a
one-element queue has work_first = work_last); the sweep in pool_destroy keeps
the invariant only for an already-empty queue, and on a non-empty queue leaves
a non-null work_first with a dangling work_last, which is harmless only because
the pool itself is freed right after (cli.c 164-170). -/
theorem queue_ops_tail_invariant (q : QState) (addrs : List Nat) (ts : List WorkItem)
    (hwf : QWF q addrs ts) :
    head_tail_inv q ∧
    (∀ a, addrs = [a] → q.work_first = some a ∧ q.work_last = some a) ∧
    (∀ it, ∃ q', q_enqueue q it = some q' ∧
      QWF q' (addrs ++ [q.fresh]) (ts ++ [it]) ∧ head_tail_inv q') ∧
    (addrs = [] → tpool_work_get q = some (q, none)) ∧
    (∀ a l, addrs = a :: l → ∃ q' ts', tpool_work_get q = some (q', some a) ∧
      QWF q' l ts' ∧ head_tail_inv q') ∧
    (∃ q', q_sweep q = some q' ∧ q'.work_first = q.work_first ∧
      q'.work_last = q.work_last ∧
      (addrs = [] → head_tail_inv q') ∧
      (addrs ≠ [] → q'.work_first ≠ none ∧ tail_valid q' = false)) := by
  refine ⟨qwf_head_tail_inv q addrs ts hwf, ?_, ?_, ?_, ?_, ?_⟩
  · intro a ha
    subst ha
    exact qwf_single q a ts hwf
  · intro it
    obtain ⟨q', heq, hwf', _⟩ := qwf_enqueue q addrs ts it hwf
    exact ⟨q', heq, hwf', qwf_head_tail_inv _ _ _ hwf'⟩
  · intro ha
    subst ha
    exact (qwf_get_nil q ts hwf).2
  · intro a l ha
    subst ha
    obtain ⟨q', nd, ts', _, _, hget, hwf', _, _⟩ := qwf_get_cons q a l ts hwf
    exact ⟨q', ts', hget, hwf', qwf_head_tail_inv _ _ _ hwf'⟩
  · obtain ⟨q', hs, hfirst, hlast, _, hlook⟩ := q_sweep_spec q addrs ts hwf
    obtain ⟨hb, hc, hl⟩ := hwf
    refine ⟨q', hs, hfirst, hlast, ?_, ?_⟩
    · intro ha
      subst ha
      obtain ⟨hof, _⟩ := chainT_nil_inv q.heap q.work_first ts hc
      have hwl' : q'.work_last = none := by
        rw [hlast, hl]
        rfl
      have hof' : q'.work_first = none := by rw [hfirst, hof]
      show tail_valid q' = true ↔ q'.work_first ≠ none
      rw [tail_valid_none q' hwl', hof']
      simp
    · intro ha
      cases haddrs : addrs with
      | nil => exact absurd haddrs ha
      | cons a l =>
        subst haddrs
        obtain ⟨la, hla⟩ := lastPtr_cons_some l a
        have hwl' : q'.work_last = some la := by rw [hlast, hl, hla]
        have hmem := lastPtr_mem _ la hla
        have hlknone : heapLookup q'.heap la = none := by
          rw [hlook la, if_pos hmem]
        constructor
        · rw [hfirst, chainT_cons_first q.heap q.work_first a l ts hc]
          simp
        · rw [tail_valid_some q' la hwl', hlknone]
          rfl

/-- Claim C8, witness for the amended theorem: the empty fresh queue. -/
theorem queue_ops_tail_invariant_witness :
    head_tail_inv qEmptyPool ∧
    (∃ q', q_enqueue qEmptyPool (WorkItem.mk 1 "t" 2) = some q' ∧
      QWF q' ([] ++ [qEmptyPool.fresh]) ([] ++ [WorkItem.mk 1 "t" 2]) ∧
      head_tail_inv q') :=
  ⟨(queue_ops_tail_invariant qEmptyPool [] [] qwf_empty).1,
   (queue_ops_tail_invariant qEmptyPool [] [] qwf_empty).2.2.1 (WorkItem.mk 1 "t" 2)⟩

/-- Claim C4, witness: submit ⟨1,"a",0⟩ then ⟨2,"b",0⟩, dequeue once; the
dequeued sequence is [⟨1,"a",0⟩], the prefix of the submission order. -/
def fifoWitFinal : FifoSt :=
  ⟨⟨[(1, WorkNode.mk (WorkItem.mk 2 "b" 0) none)], some 1, some 1, 2⟩, [],
    [WorkItem.mk 1 "a" 0]⟩

theorem pool_fifo_order_witness :
    fifoRun (fifoInit [WorkItem.mk 1 "a" 0, WorkItem.mk 2 "b" 0])
        [QEv.enq, QEv.enq, QEv.deq] = some fifoWitFinal ∧
    (∃ addrs ts, QWF fifoWitFinal.q addrs ts ∧
      fifoWitFinal.deqd ++ ts ++ fifoWitFinal.src =
        [WorkItem.mk 1 "a" 0, WorkItem.mk 2 "b" 0] ∧
      fifoWitFinal.deqd =
        [WorkItem.mk 1 "a" 0, WorkItem.mk 2 "b" 0].take fifoWitFinal.deqd.length) :=
  ⟨rfl, pool_fifo_order [WorkItem.mk 1 "a" 0, WorkItem.mk 2 "b" 0]
    [QEv.enq, QEv.enq, QEv.deq] fifoWitFinal rfl⟩

/-- The pool state reached from pool_create 1 by a single pool_add_work, before
any worker has woken: one task queued, nobody working. -/
def waitCexPool : PoolSt := pool_submit (pool_create 1)

/-- Claim C1, counterexample: waitCexPool is reachable, is not stopping, and has
a non-empty queue with nothing yet executed, yet pool_wait's loop guard already
lets the caller return, because for a non-stopping pool the guard checks only
working_cnt and never the queue (cli.c 206-207).  So pool_wait does not block
until the queue is empty, and a submitted task can remain unexecuted at
return. -/
theorem pool_wait_exit_ignores_queue_cex :
    PReach (pool_create 1) waitCexPool ∧ waitCexPool.stop = false ∧
    waitCexPool.working_cnt = 0 ∧ pool_wait_exit waitCexPool = true ∧
    waitCexPool.queue ≠ [] ∧ waitCexPool.executed = [] :=
  ⟨PReach.step PReach.refl (PStep.submit (pool_create 1)), rfl, rfl, by decide,
    by decide, rfl⟩

/-- Claim C1 (amended): pool_wait returns exactly when, for a pool that is not
stopping, working_cnt = 0 (the pending queue is not consulted, so the queue may
still hold never-dequeued tasks at return), and, for a stopping pool,
thread_cnt = 0. -/
theorem pool_wait_exit_characterization (s : PoolSt) :
    pool_wait_exit s = true ↔
      ((s.stop = false → s.working_cnt = 0) ∧ (s.stop = true → s.thread_cnt = 0)) := by
  obtain ⟨q, w, tc, st, i, e, d, n⟩ := s
  cases st <;> simp [pool_wait_exit]

/-- Claim C5: on every reachable pool state, tasks discarded by the destroy
sweep are never executed, never in flight, and never again queued; a non-empty
discard set implies stop is set (the sweep is the only discarder and it sets
stop, which is never cleared); the sweep step itself empties the queue into the
discard set and sets stop; and every in-flight task (dequeued before stop was
observed) can still finish, stop or not, landing in executed. -/
theorem pool_destroy_eager_discard (n : Nat) (s : PoolSt)
    (h : PReach (pool_create n) s) :
    (∀ t ∈ s.discarded, t ∉ s.executed ∧ t ∉ s.inflight ∧ t ∉ s.queue) ∧
    (s.discarded ≠ [] → s.stop = true) ∧
    (∀ s₂ : PoolSt, PStep s PEv.sweep s₂ →
      s₂.stop = true ∧ s₂.queue = [] ∧ s₂.discarded = s.discarded ++ s.queue) ∧
    (∀ t ∈ s.inflight, PStep s (PEv.finish t) (pool_finish s t) ∧
      t ∈ (pool_finish s t).executed) := by
  obtain ⟨hnd, hbound, hdisc⟩ := preach_inv n s h
  refine ⟨?_, hdisc, ?_, ?_⟩
  · intro t htd
    rw [poolIds, List.nodup_append] at hnd
    have hnin : t ∉ s.queue ++ s.inflight ++ s.executed :=
      fun hin => hnd.2.2 hin htd
    refine ⟨?_, ?_, ?_⟩
    · exact fun hte => hnin (List.mem_append_right _ hte)
    · exact fun hti =>
        hnin (List.mem_append_left _ (List.mem_append_right _ hti))
    · exact fun htq =>
        hnin (List.mem_append_left _ (List.mem_append_left _ htq))
  · intro s₂ hs₂
    cases hs₂
    exact ⟨rfl, rfl, rfl⟩
  · intro t hti
    exact ⟨PStep.finish s t hti, List.mem_append_right _ (List.mem_singleton.mpr rfl)⟩

/-- The pool state after submitting one task to pool_create 1 and running the
destroy sweep: the task is discarded, unrun, and stop is set. -/
def discardWitPool : PoolSt := pool_destroy_sweep (pool_submit (pool_create 1))

/-- Claim C5, witness: the concrete two-step run submit; sweep. -/
theorem pool_destroy_eager_discard_witness :
    (∀ t ∈ discardWitPool.discarded, t ∉ discardWitPool.executed ∧
      t ∉ discardWitPool.inflight ∧ t ∉ discardWitPool.queue) ∧
    (discardWitPool.discarded ≠ [] → discardWitPool.stop = true) ∧
    (∀ s₂ : PoolSt, PStep discardWitPool PEv.sweep s₂ →
      s₂.stop = true ∧ s₂.queue = [] ∧
      s₂.discarded = discardWitPool.discarded ++ discardWitPool.queue) ∧
    (∀ t ∈ discardWitPool.inflight,
      PStep discardWitPool (PEv.finish t) (pool_finish discardWitPool t) ∧
      t ∈ (pool_finish discardWitPool t).executed) :=
  pool_destroy_eager_discard 1 discardWitPool
    (PReach.step (PReach.step PReach.refl (PStep.submit (pool_create 1)))
      (PStep.sweep (pool_submit (pool_create 1))))

/-- Claim C9: on a NULL pool handle, pool_wait returns immediately without
blocking (cli.c 200-202) and pool_destroy returns immediately with no effect
(cli.c 149-151); neither reads or writes any pool state, neither fails, so both
public operations are total on the NULL handle. -/
theorem pool_null_handle_total :
    pool_wait_returns none = true ∧ pool_destroy_handle none = none :=
  ⟨rfl, rfl⟩
